import Mathlib

/-!
Verification of the tile/coordinate math and resource-pool behaviour of a
map rendering server (`mapserver-rs`).  Pure functions from
`src/coordinates.rs` are embedded as Lean functions (tile indices as `Nat`,
the `f64` coordinate math in exact real arithmetic); the stateful pool from
`src/mappool.rs` is embedded as explicit state passing, and the
worker/reaper interaction as a small-step transition system.
-/

namespace MapServer

/-- A Web Mercator ZXY tile (`struct Tile` in `src/coordinates.rs`).
The Rust fields are `u32`; they are embedded as `Nat`. -/
structure Tile where
  x : Nat
  y : Nat
  zoom : Nat
deriving Repr, DecidableEq

namespace Tile

/-- `Tile::from_zxy(z, x, y)`: builds the tile record directly from the path
parameters, with no validation of `x`/`y` against `2 ^ z`. -/
def from_zxy (z x y : Nat) : Tile :=
  { x := x, y := y, zoom := z }

/-- The four tiles pushed for one tile `t` in the inner loop of
`Tile::children`, in source push order:
`(2x,2y)`, `(2x+1,2y)`, `(2x+1,2y+1)`, `(2x,2y+1)`, all at `t.zoom + 1`. -/
def quadChildren (t : Tile) : List Tile :=
  [⟨t.x * 2, t.y * 2, t.zoom + 1⟩,
   ⟨t.x * 2 + 1, t.y * 2, t.zoom + 1⟩,
   ⟨t.x * 2 + 1, t.y * 2 + 1, t.zoom + 1⟩,
   ⟨t.x * 2, t.y * 2 + 1, t.zoom + 1⟩]

/-- One pass of the outer loop body of `Tile::children` for level `z`:
iterate over a snapshot (`tiles.clone()`) of the accumulated list and, for
every tile whose `zoom` equals `z`, append its four children. -/
def childrenPass (z : Nat) (tiles : List Tile) : List Tile :=
  tiles ++ (tiles.filter (fun t => t.zoom == z)).flatMap quadChildren

/-- `Tile::children(target_zoom)`: start from `[self]`, run `childrenPass z`
for `z = self.zoom, …, target_zoom - 1` (the Rust range `self.zoom..target_zoom`,
empty when `target_zoom <= self.zoom`), then reverse the accumulated list. -/
def children (t : Tile) (target_zoom : Nat) : List Tile :=
  (((List.range' t.zoom (target_zoom - t.zoom)).foldl
      (fun tiles z => childrenPass z tiles) [t])).reverse

/-- Level `k` of the breadth-first descendant expansion of `t`:
level `0` is `[t]`, and level `k+1` lists the four quadrant children of each
level-`k` tile, in order. -/
def level (t : Tile) : Nat → List Tile
  | 0 => [t]
  | k + 1 => (level t k).flatMap quadChildren

/-- The breadth-first accumulation described by the specification: the
original tile, then every intermediate-zoom descendant level in order, down
to depth `d`, with no level filtered out. -/
def bfsAccum (t : Tile) (d : Nat) : List Tile :=
  (List.range (d + 1)).flatMap (level t)

theorem zoom_of_mem_level {t : Tile} {k : Nat} {u : Tile}
    (hu : u ∈ level t k) : u.zoom = t.zoom + k := by
  induction k generalizing u with
  | zero =>
    simp only [level, List.mem_singleton] at hu
    simp [hu]
  | succ k ih =>
    simp only [level, List.mem_flatMap] at hu
    obtain ⟨v, hv, huv⟩ := hu
    have hz := ih hv
    simp only [quadChildren, List.mem_cons, List.mem_singleton] at huv
    rcases huv with h | h | h | h | h
    all_goals first
      | (subst h; simp [hz, Nat.add_comm, Nat.add_assoc, Nat.add_left_comm])
      | exact absurd h (List.not_mem_nil u)

theorem length_level (t : Tile) (k : Nat) : (level t k).length = 4 ^ k := by
  induction k with
  | zero => simp [level]
  | succ k ih =>
    simp only [level, List.length_flatMap]
    have hmap : (level t k).map (List.length ∘ quadChildren)
        = (level t k).map (fun _ => 4) := by
      apply List.map_congr_left
      intro v _
      simp [quadChildren]
    rw [hmap, List.map_const', List.sum_replicate, smul_eq_mul, ih]
    ring

theorem level_ne_nil (t : Tile) (k : Nat) : level t k ≠ [] := by
  intro h
  have h1 := length_level t k
  rw [h, List.length_nil] at h1
  have h2 : (0:ℕ) < 4 ^ k := pow_pos (by norm_num) k
  omega

theorem bfsAccum_zero (t : Tile) : bfsAccum t 0 = level t 0 := by
  simp [bfsAccum, List.range_succ]

theorem bfsAccum_succ (t : Tile) (d : Nat) :
    bfsAccum t (d + 1) = bfsAccum t d ++ level t (d + 1) := by
  simp [bfsAccum, List.range_succ]

theorem filter_level_self (t : Tile) (k : Nat) :
    (level t k).filter (fun u => u.zoom == t.zoom + k) = level t k := by
  apply List.filter_eq_self.mpr
  intro u hu
  simp [zoom_of_mem_level hu]

theorem filter_level_other (t : Tile) {k z : Nat} (h : t.zoom + k ≠ z) :
    (level t k).filter (fun u => u.zoom == z) = [] := by
  apply List.filter_eq_nil_iff.mpr
  intro u hu
  simp [zoom_of_mem_level hu, h]

theorem filter_bfsAccum (t : Tile) (d : Nat) :
    (bfsAccum t d).filter (fun u => u.zoom == t.zoom + d) = level t d := by
  induction d with
  | zero =>
    rw [bfsAccum_zero]
    simpa using filter_level_self t 0
  | succ d ih =>
    rw [bfsAccum_succ, List.filter_append, filter_level_self t (d + 1)]
    have hnil : (bfsAccum t d).filter (fun u => u.zoom == t.zoom + (d + 1)) = [] := by
      apply List.filter_eq_nil_iff.mpr
      intro u hu
      simp only [bfsAccum, List.mem_flatMap, List.mem_range] at hu
      obtain ⟨k, hk, huk⟩ := hu
      have := zoom_of_mem_level huk
      simp [this]
      omega
    rw [hnil, List.nil_append]

theorem childrenPass_bfsAccum (t : Tile) (d : Nat) :
    childrenPass (t.zoom + d) (bfsAccum t d) = bfsAccum t (d + 1) := by
  rw [childrenPass, filter_bfsAccum, bfsAccum_succ]
  rfl

theorem children_foldl_aux (t : Tile) (j : Nat) : ∀ d : Nat,
    (List.range' (t.zoom + d) j).foldl (fun tiles z => childrenPass z tiles)
        (bfsAccum t d)
      = bfsAccum t (d + j) := by
  induction j with
  | zero => intro d; rfl
  | succ j ih =>
    intro d
    rw [List.range'_succ, List.foldl_cons, childrenPass_bfsAccum t d]
    have h1 : t.zoom + d + 1 = t.zoom + (d + 1) := by omega
    have h2 : d + (j + 1) = (d + 1) + j := by omega
    rw [h1, h2]
    exact ih (d + 1)

theorem children_foldl (t : Tile) (d : Nat) :
    (List.range' t.zoom d).foldl (fun tiles z => childrenPass z tiles) [t]
      = bfsAccum t d := by
  have h0 : bfsAccum t 0 = [t] := by rw [bfsAccum_zero]; rfl
  have := children_foldl_aux t d 0
  rw [Nat.add_zero, Nat.zero_add, h0] at this
  exact this

theorem children_eq_reverse_bfsAccum (t : Tile) (tz : Nat) :
    t.children tz = (bfsAccum t (tz - t.zoom)).reverse := by
  rw [children, children_foldl]

theorem length_bfsAccum (t : Tile) (d : Nat) :
    (bfsAccum t d).length = ∑ i ∈ Finset.range (d + 1), 4 ^ i := by
  induction d with
  | zero =>
    rw [bfsAccum_zero]
    simp [level]
  | succ d ih =>
    rw [bfsAccum_succ, List.length_append, ih, length_level,
      Finset.sum_range_succ (fun i => (4:ℕ) ^ i) (d + 1)]

theorem head?_bfsAccum (t : Tile) (d : Nat) : (bfsAccum t d).head? = some t := by
  induction d with
  | zero => rw [bfsAccum_zero]; rfl
  | succ d ih =>
    rw [bfsAccum_succ]
    cases hb : bfsAccum t d with
    | nil => rw [hb] at ih; cases ih
    | cons a l =>
      rw [hb] at ih
      simp only [List.head?_cons, Option.some.injEq] at ih
      simp [ih]

theorem getLast?_bfsAccum (t : Tile) (d : Nat) :
    (bfsAccum t d).getLast? = (level t d).getLast? := by
  cases d with
  | zero => rw [bfsAccum_zero]
  | succ d =>
    rw [bfsAccum_succ, List.getLast?_append_of_ne_nil _ (level_ne_nil t (d + 1))]

theorem getLast?_level_zoom (t : Tile) (d : Nat) :
    ∃ u, (level t d).getLast? = some u ∧ u.zoom = t.zoom + d := by
  cases hl : (level t d).getLast? with
  | none =>
    rw [List.getLast?_eq_none_iff] at hl
    exact absurd hl (level_ne_nil t d)
  | some u =>
    refine ⟨u, rfl, ?_⟩
    have hmem : u ∈ (level t d).getLast? := by rw [hl]; rfl
    obtain ⟨hne, hu⟩ := List.mem_getLast?_eq_getLast hmem
    have humem : u ∈ level t d := by rw [hu]; exact List.getLast_mem hne
    exact zoom_of_mem_level humem

/-- C1: for every tile `t` and `target_zoom ≥ t.zoom`, `children` returns the
reversal of the breadth-first accumulation (each level-`z` tile contributing
its four children at `z+1` in the order `(2x,2y)`, `(2x+1,2y)`, `(2x+1,2y+1)`,
`(2x,2y+1)`, intermediate-zoom tiles not filtered out), of length
`Σ_{i=0}^{target_zoom - t.zoom} 4^i`, whose first element has
`zoom = target_zoom` and whose last element is `t` itself. -/
theorem children_spec (t : Tile) (tz : Nat) (h : t.zoom ≤ tz) :
    t.children tz = (bfsAccum t (tz - t.zoom)).reverse
    ∧ (t.children tz).length = ∑ i ∈ Finset.range (tz - t.zoom + 1), 4 ^ i
    ∧ (∃ u, (t.children tz).head? = some u ∧ u.zoom = tz)
    ∧ (t.children tz).getLast? = some t := by
  refine ⟨children_eq_reverse_bfsAccum t tz, ?_, ?_, ?_⟩
  · rw [children_eq_reverse_bfsAccum, List.length_reverse, length_bfsAccum]
  · obtain ⟨u, hu, hz⟩ := getLast?_level_zoom t (tz - t.zoom)
    refine ⟨u, ?_, by omega⟩
    rw [children_eq_reverse_bfsAccum, List.head?_reverse, getLast?_bfsAccum, hu]
  · rw [children_eq_reverse_bfsAccum, List.getLast?_reverse, head?_bfsAccum]

/-- Witness for `children_spec` at the concrete tile `{0,0,0}` and
`target_zoom = 2`. -/
theorem children_spec_witness :
    (Tile.mk 0 0 0).children 2 = (bfsAccum ⟨0, 0, 0⟩ 2).reverse
    ∧ ((Tile.mk 0 0 0).children 2).length = ∑ i ∈ Finset.range 3, 4 ^ i
    ∧ (∃ u, ((Tile.mk 0 0 0).children 2).head? = some u ∧ u.zoom = 2)
    ∧ ((Tile.mk 0 0 0).children 2).getLast? = some ⟨0, 0, 0⟩ :=
  children_spec ⟨0, 0, 0⟩ 2 (by decide)

end Tile

/-! ### The map pool (`src/mappool.rs`) -/

/-- `struct Extent(f64, f64, f64, f64)` from `src/lib.rs`, embedded with
exact real coordinates. -/
structure Extent where
  p0 : ℝ
  p1 : ℝ
  p2 : ℝ
  p3 : ℝ

/-- State of a `MapPool` (with its embedded thread pool), for the
sequential behaviour of `acquire_or_create`, whose whole body runs under
the pool mutex. `lookup` is the `HashMap<String, MapRenderChannel>` as an
association list, with each channel identified by the number of the worker
it is paired with; `nextId` numbers spawned workers; `constructed` counts
`Map::from` renderer constructions (each spawned worker closure constructs
exactly one `Map` when a pool thread starts it); `poolSize` is the thread
count (`size + 1`); `running` counts jobs currently occupying a thread and
`queued` counts jobs submitted by `threadpool.execute` that no idle thread
has picked up yet. -/
structure PoolState where
  lookup : List (String × Nat)
  nextId : Nat
  constructed : Nat
  poolSize : Nat
  running : Nat
  queued : Nat
deriving Repr, DecidableEq

/-- `MapPool::acquire_or_create`: under the pool lock, look `key` up in the
map (`lookup.entry(key)`); on a hit return a clone of the stored channel,
leaving the state untouched; on a miss create a fresh rendezvous channel
pair, submit the worker closure with `threadpool.execute` — which enqueues
the job and neither blocks nor fails, whatever the idle-thread count — and
insert the entry, returning a clone of the new channel. -/
def acquire_or_create (s : PoolState) (key : String) : Nat × PoolState :=
  match s.lookup.lookup key with
  | some ch => (ch, s)
  | none =>
      (s.nextId,
        { s with
            lookup := (key, s.nextId) :: s.lookup
            nextId := s.nextId + 1
            constructed := s.constructed + 1
            queued := s.queued + 1 })

theorem lookup_some_mem_keys {l : List (String × Nat)} {k : String} {c : Nat}
    (h : l.lookup k = some c) : k ∈ l.map Prod.fst := by
  induction l with
  | nil => cases h
  | cons p rest ih =>
    rw [List.lookup_cons] at h
    by_cases hk : k = p.1
    · simp [hk]
    · have hb : (k == p.1) = false := beq_false_of_ne hk
      rw [hb] at h
      simp only [List.map_cons, List.mem_cons]
      exact Or.inr (ih h)

theorem lookup_none_not_mem {l : List (String × Nat)} {k : String}
    (h : l.lookup k = none) : k ∉ l.map Prod.fst := by
  intro hmem
  induction l with
  | nil => cases hmem
  | cons p rest ih =>
    rw [List.lookup_cons] at h
    by_cases hk : k = p.1
    · rw [show (k == p.1) = true from beq_iff_eq.mpr hk] at h
      cases h
    · have hb : (k == p.1) = false := beq_false_of_ne hk
      rw [hb] at h
      simp only [List.map_cons, List.mem_cons] at hmem
      exact ih h (hmem.resolve_left hk)

/-- C3: with the key already present, `acquire_or_create` returns a clone of
the stored channel and changes nothing (no insertion, no worker spawned, no
renderer constructed); two sequential calls return the same channel with the
construction counter bumped at most once (exactly once when the key was
absent); and the mapping keeps at most one entry per key. -/
theorem acquire_or_create_spec (s : PoolState) (k : String)
    (hnd : (s.lookup.map Prod.fst).Nodup) :
    (∀ ch, s.lookup.lookup k = some ch → acquire_or_create s k = (ch, s))
    ∧ ((acquire_or_create (acquire_or_create s k).2 k).1 = (acquire_or_create s k).1
      ∧ (acquire_or_create (acquire_or_create s k).2 k).2.constructed
          = (acquire_or_create s k).2.constructed
      ∧ (acquire_or_create s k).2.constructed ≤ s.constructed + 1)
    ∧ (s.lookup.lookup k = none →
        (acquire_or_create s k).2.constructed = s.constructed + 1)
    ∧ ((acquire_or_create s k).2.lookup.map Prod.fst).Nodup := by
  have hit : ∀ ch, s.lookup.lookup k = some ch → acquire_or_create s k = (ch, s) := by
    intro ch h
    unfold acquire_or_create
    rw [h]
  refine ⟨hit, ?_, ?_, ?_⟩
  · cases h : s.lookup.lookup k with
    | some ch =>
      rw [hit ch h]
      rw [hit ch h]
      exact ⟨rfl, rfl, Nat.le_succ _⟩
    | none =>
      unfold acquire_or_create
      rw [h]
      simp [List.lookup_cons]
  · intro h
    unfold acquire_or_create
    rw [h]
  · cases h : s.lookup.lookup k with
    | some ch => rw [hit ch h]; exact hnd
    | none =>
      unfold acquire_or_create
      rw [h]
      simp only [List.map_cons, List.nodup_cons]
      exact ⟨lookup_none_not_mem h, hnd⟩

/-- Witness for `acquire_or_create_spec` at a concrete one-entry pool. -/
theorem acquire_or_create_spec_witness :
    ((PoolState.mk [("a", 0)] 1 1 2 1 0).lookup.map Prod.fst).Nodup
    ∧ acquire_or_create ⟨[("a", 0)], 1, 1, 2, 1, 0⟩ "a"
        = (0, ⟨[("a", 0)], 1, 1, 2, 1, 0⟩) := by
  refine ⟨by decide, ?_⟩
  exact (acquire_or_create_spec ⟨[("a", 0)], 1, 1, 2, 1, 0⟩ "a" (by decide)).1 0 (by decide)

/-- C6 counterexample: in a pool whose threads are all busy (`running =
poolSize`, so no execution slot is free), `acquire_or_create` for a new key
neither fails with any `PoolExhausted`-like error nor waits for a slot: it
returns a fresh channel at once and inserts the `PoolEntry`; the worker job
is merely left queued. (No failure value exists anywhere in its type.) -/
theorem acquire_or_create_full_pool_counterexample :
    acquire_or_create ⟨[], 0, 0, 2, 2, 0⟩ "k"
      = (0, ⟨[("k", 0)], 1, 1, 2, 2, 1⟩) := by
  decide

/-- C6 amended: `acquire_or_create` is total and slot-oblivious — its
returned channel and its lookup/constructed/queued updates are identical
whatever the thread occupancy; exhausting the slots only delays the queued
worker job (so the *render* calls, not `acquire_or_create`, are what wait). -/
theorem acquire_or_create_slot_independent (lkp : List (String × Nat))
    (ni c q ps r ps' r' : Nat) (k : String) :
    (acquire_or_create ⟨lkp, ni, c, ps, r, q⟩ k).1
        = (acquire_or_create ⟨lkp, ni, c, ps', r', q⟩ k).1
    ∧ (acquire_or_create ⟨lkp, ni, c, ps, r, q⟩ k).2.lookup
        = (acquire_or_create ⟨lkp, ni, c, ps', r', q⟩ k).2.lookup
    ∧ (acquire_or_create ⟨lkp, ni, c, ps, r, q⟩ k).2.constructed
        = (acquire_or_create ⟨lkp, ni, c, ps', r', q⟩ k).2.constructed
    ∧ (acquire_or_create ⟨lkp, ni, c, ps, r, q⟩ k).2.queued
        = (acquire_or_create ⟨lkp, ni, c, ps', r', q⟩ k).2.queued := by
  unfold acquire_or_create
  cases lkp.lookup k <;> exact ⟨rfl, rfl, rfl, rfl⟩

/-- The outcome of a Rust call that either returns a value or panics. -/
inductive RenderOutcome where
  | ok (img : List Nat)
  | panicked (msg : String)
deriving Repr, DecidableEq

/-- `MapRenderChannel::render`: sends the extent on the rendezvous request
channel and blocks for the reply on the response channel. `workerAlive`
states whether the paired worker loop still holds the receiving end; `draw`
is the owned renderer's `Map::draw`. On a successful send the worker draws
the extent and the complete byte buffer is handed over in one rendezvous
(`recv` yields exactly what the worker sent); when the worker has exited,
`send` returns `Err` and the `Err` match arm executes
`todo!("MapRenderThread is not alive, this should never happen")`, i.e. the
call panics. -/
def MapRenderChannel.render (workerAlive : Bool) (draw : Extent → List Nat)
    (ext : Extent) : RenderOutcome :=
  if workerAlive then .ok (draw ext)
  else .panicked "MapRenderThread is not alive, this should never happen"

/-- C4: with the request side disconnected (worker exited), `render` does
not fail with a typed `WorkerUnavailable` error — it panics through the
`todo!` arm, and no error value exists in its return type; when the worker
is alive the caller receives exactly the drawn bytes, never a partial
buffer. -/
theorem render_disconnected_panics (draw : Extent → List Nat) (ext : Extent) :
    MapRenderChannel.render false draw ext
      = .panicked "MapRenderThread is not alive, this should never happen"
    ∧ (∀ img, MapRenderChannel.render false draw ext ≠ .ok img)
    ∧ MapRenderChannel.render true draw ext = .ok (draw ext) := by
  refine ⟨rfl, ?_, rfl⟩
  intro img h
  cases h

/-! ### Worker exit / reaper interleaving (worker closure in
`MapPool::acquire_or_create` and the GC thread in `MapPool::create`) -/

/-- Phase of one spawned worker closure.
`running`: inside the `select!` loop, owning a live `Map`;
`exiting`: broke out of the loop (idle timeout or request-channel
disconnect), `Map` still live, about to call `exit.send`;
`notified`: the rendezvous `exit.send(mapfile_str)` has completed, `Map`
still live — `map` is a local of the closure and is dropped only when the
closure body ends, *after* the send;
`done`: the closure returned and its `Map` was dropped. -/
inductive WorkerPhase where
  | running
  | exiting
  | notified
  | done
deriving Repr, DecidableEq

/-- The renderer owned by a worker is alive until its closure ends. -/
def WorkerPhase.rendererAlive : WorkerPhase → Bool
  | .done => false
  | _ => true

/-- One spawned worker closure and the key it serves. -/
structure WorkerState where
  key : String
  phase : WorkerPhase
deriving Repr, DecidableEq

/-- Phase of the GC ("reaper") thread: blocked in `exit_receiver.recv()`,
holding a just-received key before removing it under the pool lock, or
panicked on `lk.remove(&exited_mapfile).unwrap()`. -/
inductive ReaperPhase where
  | idle
  | holding (k : String)
  | fatal
deriving Repr, DecidableEq

/-- Global state of the pool map, the worker closures and the GC thread. -/
structure SysState where
  pool : List String
  workers : List WorkerState
  reaper : ReaperPhase
  cleanups : Nat
deriving Repr, DecidableEq

/-- Interleaved small-step semantics of the eviction protocol. -/
inductive Step : SysState → SysState → Prop where
  /-- `acquire_or_create` cache miss: insert the entry under the pool lock
  and spawn the worker, which constructs its `Map` and enters the loop. -/
  | spawn (s : SysState) (k : String) (hk : k ∉ s.pool) :
      Step s { s with pool := k :: s.pool,
                      workers := ⟨k, .running⟩ :: s.workers }
  /-- Idle timeout elapses (or the request channel disconnects): the worker
  breaks out of its `select!` loop. -/
  | workerBreak (s : SysState) (pre post : List WorkerState) (k : String)
      (hw : s.workers = pre ++ ⟨k, .running⟩ :: post) :
      Step s { s with workers := pre ++ ⟨k, .exiting⟩ :: post }
  /-- The rendezvous on the zero-capacity exit channel: `exit.send(key)` in
  the worker completes exactly when `exit_receiver.recv()` in the GC thread
  returns. The worker's `Map` is not yet dropped. -/
  | rendezvous (s : SysState) (pre post : List WorkerState) (k : String)
      (hw : s.workers = pre ++ ⟨k, .exiting⟩ :: post)
      (hr : s.reaper = .idle) :
      Step s { s with workers := pre ++ ⟨k, .notified⟩ :: post,
                      reaper := .holding k }
  /-- The worker closure returns; only now is its `Map` dropped. -/
  | workerFinish (s : SysState) (pre post : List WorkerState) (k : String)
      (hw : s.workers = pre ++ ⟨k, .notified⟩ :: post) :
      Step s { s with workers := pre ++ ⟨k, .done⟩ :: post }
  /-- GC thread body: under the pool lock, `lk.remove(&exited).unwrap()`,
  then `if lk.len() == 0` run the process-wide cleanup while still holding
  the lock. -/
  | reaperRemove (s : SysState) (k : String)
      (hr : s.reaper = .holding k) (hk : k ∈ s.pool) :
      Step s { s with pool := s.pool.erase k,
                      reaper := .idle,
                      cleanups := if s.pool.erase k = [] then s.cleanups + 1
                                  else s.cleanups }
  /-- `lk.remove(&exited).unwrap()` with the key absent: the GC thread
  panics (the fatal invariant violation). -/
  | reaperRemoveMissing (s : SysState) (k : String)
      (hr : s.reaper = .holding k) (hk : k ∉ s.pool) :
      Step s { s with reaper := .fatal }

/-- C5: a reachable eviction sequence in which the gated process-wide
cleanup executes while a renderer is still alive: the sole worker breaks
out of its loop, completes the exit rendezvous, and the GC thread removes
the final `PoolEntry` and runs the cleanup before the worker closure has
returned and dropped its `Map` — even though the cleanup is guarded by
`lk.len() == 0` and commented "All maps are dropped, only now is it safe to
cleanup". -/
theorem cleanup_while_renderer_alive :
    ∃ s : SysState,
      Relation.ReflTransGen Step ⟨[], [], .idle, 0⟩ s
      ∧ 1 ≤ s.cleanups
      ∧ ∃ w ∈ s.workers, w.phase.rendererAlive = true := by
  refine ⟨⟨[], [⟨"k", .notified⟩], .idle, 1⟩, ?_, le_refl 1,
    ⟨"k", .notified⟩, by simp, rfl⟩
  have h1 : Step ⟨[], [], .idle, 0⟩ ⟨["k"], [⟨"k", .running⟩], .idle, 0⟩ :=
    Step.spawn ⟨[], [], .idle, 0⟩ "k" (by simp)
  have h2 : Step ⟨["k"], [⟨"k", .running⟩], .idle, 0⟩
      ⟨["k"], [⟨"k", .exiting⟩], .idle, 0⟩ :=
    Step.workerBreak ⟨["k"], [⟨"k", .running⟩], .idle, 0⟩ [] [] "k" rfl
  have h3 : Step ⟨["k"], [⟨"k", .exiting⟩], .idle, 0⟩
      ⟨["k"], [⟨"k", .notified⟩], .holding "k", 0⟩ :=
    Step.rendezvous ⟨["k"], [⟨"k", .exiting⟩], .idle, 0⟩ [] [] "k" rfl rfl
  have h4 : Step ⟨["k"], [⟨"k", .notified⟩], .holding "k", 0⟩
      ⟨[], [⟨"k", .notified⟩], .idle, 1⟩ := by
    have := Step.reaperRemove ⟨["k"], [⟨"k", .notified⟩], .holding "k", 0⟩ "k"
      rfl (by simp)
    simpa using this
  exact Relation.ReflTransGen.head h1 (Relation.ReflTransGen.head h2
    (Relation.ReflTransGen.head h3 (Relation.ReflTransGen.single h4)))

/-- C10: `Tile::from_zxy` validates nothing: for every `z`, `x`, `y` —
including `x ≥ 2^z` — it returns `Tile{x, y, zoom: z}` without error, so
the documented invariant `x < 2^zoom` is not enforced at this interface
(through which the raw `/map/:timestamp/:z/:x/:y` path parameters of
`render_map` reach the tile math). `0 ≤ x` holds trivially for the
unsigned fields. -/
theorem from_zxy_no_validation :
    (∀ z x y : Nat, Tile.from_zxy z x y = ⟨x, y, z⟩)
    ∧ ¬ (∀ z x y : Nat, (Tile.from_zxy z x y).x < 2 ^ z) :=
  ⟨fun _ _ _ => rfl, fun h => absurd (h 0 1 0) (by decide)⟩

/-! ### Real-number embedding of the `f64` coordinate math
(`src/coordinates.rs`), with the `f64` transcendental functions read in
exact real arithmetic. -/

noncomputable section

/-- `EARTH_RADIUS` constant. -/
def EARTH_RADIUS : ℝ := 6378137

/-- `EARTH_CIRCUMFERENCE = 2. * PI * EARTH_RADIUS`. -/
def EARTH_CIRCUMFERENCE : ℝ := 2 * Real.pi * EARTH_RADIUS

namespace Tile

/-- `let latsin = lat.to_radians().sin()`. -/
def latsin (lat : ℝ) : ℝ := Real.sin (lat * Real.pi / 180)

/-- The normalized x of `Tile::from_coords`: `0.5 + lon / 360.`. -/
def normX (lon : ℝ) : ℝ := 0.5 + lon / 360

/-- The normalized y of `Tile::from_coords`:
`0.5 - 0.25 * ((1. + latsin) / (1. - latsin)).log(E) / PI`. -/
def normY (lat : ℝ) : ℝ :=
  0.5 - 0.25 * Real.log ((1 + latsin lat) / (1 - latsin lat)) / Real.pi

/-- The clamped tile index of `Tile::from_coords` (the same rule is applied
on both axes): `0` when the normalized value is `<= 0`, `2^zoom - 1` when it
is `>= 1`, otherwise `floor(value * 2^zoom)`. -/
def tileIndex (v : ℝ) (zoom : Nat) : Nat :=
  if v ≤ 0 then 0
  else if 1 ≤ v then 2 ^ zoom - 1
  else (⌊v * 2 ^ zoom⌋).toNat

/-- `Tile::from_coords(lon, lat, zoom)`. -/
def from_coords (lon lat : ℝ) (zoom : Nat) : Tile :=
  ⟨tileIndex (normX lon) zoom, tileIndex (normY lat) zoom, zoom⟩

/-- `Tile::bbox_mercator`, returning `(llx, lly, urx, ury)` in EPSG:3857. -/
def bbox_mercator (t : Tile) : ℝ × ℝ × ℝ × ℝ :=
  (t.x * (EARTH_CIRCUMFERENCE / 2 ^ t.zoom) - EARTH_CIRCUMFERENCE / 2,
   (EARTH_CIRCUMFERENCE / 2 - t.y * (EARTH_CIRCUMFERENCE / 2 ^ t.zoom))
     - EARTH_CIRCUMFERENCE / 2 ^ t.zoom,
   (t.x * (EARTH_CIRCUMFERENCE / 2 ^ t.zoom) - EARTH_CIRCUMFERENCE / 2)
     + EARTH_CIRCUMFERENCE / 2 ^ t.zoom,
   EARTH_CIRCUMFERENCE / 2 - t.y * (EARTH_CIRCUMFERENCE / 2 ^ t.zoom))

/-- Modelled from the spec: the Web Mercator (EPSG:3857) projected x of a
longitude, the "projected position" the spec's containment property refers
to (the spec states no formula; this is the standard spherical-Mercator
one, `x = R · lon·π/180`). -/
def mercX (lon : ℝ) : ℝ := EARTH_RADIUS * (lon * Real.pi / 180)

/-- Modelled from the spec: the Web Mercator (EPSG:3857) projected y of a
latitude, `y = R · ln((1 + sin φ)/(1 - sin φ)) / 2`. -/
def mercY (lat : ℝ) : ℝ :=
  EARTH_RADIUS * Real.log ((1 + latsin lat) / (1 - latsin lat)) / 2

theorem tileIndex_lt_two_pow (v : ℝ) (z : Nat) : tileIndex v z < 2 ^ z := by
  have hpow : (0:ℕ) < 2 ^ z := pow_pos (by norm_num) z
  unfold tileIndex
  split
  · exact hpow
  · split
    · omega
    · rename_i hv0 hv1
      push_neg at hv0 hv1
      have hfloor : ⌊v * 2 ^ z⌋ < ((2 ^ z : ℕ) : ℤ) := by
        apply Int.floor_lt.mpr
        push_cast
        exact mul_lt_of_lt_one_left (by positivity) hv1
      omega

/-- C7: `from_coords` computes each tile index by the clamp rule — index
`0` when the normalized value is `≤ 0`, `2^zoom - 1` when it is `≥ 1`,
`⌊value * 2^zoom⌋` otherwise — and consequently the returned tile
satisfies `x < 2^zoom` and `y < 2^zoom` for every input. -/
theorem from_coords_clamped (lon lat : ℝ) (zoom : Nat) :
    (from_coords lon lat zoom).x
      = (if normX lon ≤ 0 then 0 else if 1 ≤ normX lon then 2 ^ zoom - 1
         else (⌊normX lon * 2 ^ zoom⌋).toNat)
    ∧ (from_coords lon lat zoom).y
      = (if normY lat ≤ 0 then 0 else if 1 ≤ normY lat then 2 ^ zoom - 1
         else (⌊normY lat * 2 ^ zoom⌋).toNat)
    ∧ (from_coords lon lat zoom).x < 2 ^ zoom
    ∧ (from_coords lon lat zoom).y < 2 ^ zoom :=
  ⟨rfl, rfl, tileIndex_lt_two_pow _ _, tileIndex_lt_two_pow _ _⟩

/-- C8: `bbox_mercator` returns exactly the extent given by
`tileSize = EARTH_CIRCUMFERENCE / 2^zoom` with
`EARTH_CIRCUMFERENCE = 2π·6378137`, `llx = x·tileSize - EC/2`,
`urx = llx + tileSize`, `ury = EC/2 - y·tileSize`, `lly = ury - tileSize`,
and the result satisfies `minx < maxx` and `miny < maxy`. -/
theorem bbox_mercator_spec (t : Tile) :
    t.bbox_mercator
      = (t.x * (2 * Real.pi * 6378137 / 2 ^ t.zoom) - 2 * Real.pi * 6378137 / 2,
         (2 * Real.pi * 6378137 / 2 - t.y * (2 * Real.pi * 6378137 / 2 ^ t.zoom))
           - 2 * Real.pi * 6378137 / 2 ^ t.zoom,
         (t.x * (2 * Real.pi * 6378137 / 2 ^ t.zoom) - 2 * Real.pi * 6378137 / 2)
           + 2 * Real.pi * 6378137 / 2 ^ t.zoom,
         2 * Real.pi * 6378137 / 2 - t.y * (2 * Real.pi * 6378137 / 2 ^ t.zoom))
    ∧ t.bbox_mercator.1 < t.bbox_mercator.2.2.1
    ∧ t.bbox_mercator.2.1 < t.bbox_mercator.2.2.2 := by
  have hts : 0 < EARTH_CIRCUMFERENCE / 2 ^ t.zoom := by
    unfold EARTH_CIRCUMFERENCE EARTH_RADIUS
    positivity
  refine ⟨rfl, ?_, ?_⟩
  · show _ - _ < _ - _ + _
    linarith
  · show _ - _ - _ < _ - _
    linarith

/-! Numerical bounds on the transcendental values appearing in
`from_coords`, needed for the bounding-box containment property and the
concrete Denver tile. -/

theorem exp_quarter_pow_le {y : ℝ} (hy : 0 ≤ y) :
    (1 + y / 4) ^ 4 ≤ Real.exp y := by
  have h1 : 1 + y / 4 ≤ Real.exp (y / 4) := by
    have := Real.add_one_le_exp (y / 4)
    linarith
  have h0 : (0:ℝ) ≤ 1 + y / 4 := by linarith
  calc (1 + y / 4) ^ 4 ≤ Real.exp (y / 4) ^ 4 := pow_le_pow_left₀ h0 h1 4
    _ = Real.exp ((4:ℕ) * (y / 4)) := (Real.exp_nat_mul _ 4).symm
    _ = Real.exp y := by
        push_cast
        ring_nf

theorem exp_two_pi_gt : (499049 : ℝ) / 951 < Real.exp (2 * Real.pi) := by
  have hπ := Real.pi_gt_d6
  have h1 : (6.283184 : ℝ) ≤ 2 * Real.pi := by linarith
  have h2 : Real.exp 6.283184 ≤ Real.exp (2 * Real.pi) := Real.exp_le_exp.mpr h1
  have h3 : Real.exp (6.283184 : ℝ) = Real.exp 6 * Real.exp 0.283184 := by
    rw [← Real.exp_add]
    norm_num
  have h4 : ((2.7182818283 : ℝ)) ^ 6 ≤ Real.exp 1 ^ 6 :=
    pow_le_pow_left₀ (by norm_num) Real.exp_one_gt_d9.le 6
  have h5 : Real.exp 1 ^ 6 = Real.exp 6 := by
    rw [← Real.exp_nat_mul]
    norm_num
  have h6 : ((1 : ℝ) + 0.283184 / 4) ^ 4 ≤ Real.exp 0.283184 :=
    exp_quarter_pow_le (by norm_num)
  have h7 : ((2.7182818283 : ℝ)) ^ 6 * ((1 : ℝ) + 0.283184 / 4) ^ 4
      ≤ Real.exp 6 * Real.exp 0.283184 := by
    apply mul_le_mul (h4.trans h5.le) h6 (by positivity) (Real.exp_pos 6).le
  have h8 : (499049 : ℝ) / 951 < ((2.7182818283 : ℝ)) ^ 6 * ((1 : ℝ) + 0.283184 / 4) ^ 4 := by
    norm_num
  linarith

theorem cos_pi_div_36_le : Real.cos (Real.pi / 36) ≤ 0.996196 := by
  have hπl := Real.pi_gt_d6
  have hπu := Real.pi_lt_d6
  have hx0 : (0:ℝ) < Real.pi / 36 := by linarith
  have habs : |Real.pi / 36| ≤ 1 := by
    rw [abs_of_pos hx0]
    linarith
  have hb := Real.cos_bound habs
  rw [abs_of_pos hx0] at hb
  have hcos : Real.cos (Real.pi / 36)
      ≤ 1 - (Real.pi / 36) ^ 2 / 2 + (Real.pi / 36) ^ 4 * (5 / 96) := by
    have h := (abs_sub_le_iff.mp hb).1
    linarith
  have hxl : (3.141592 : ℝ) / 36 ≤ Real.pi / 36 := by linarith
  have hxu : Real.pi / 36 ≤ (3.141593 : ℝ) / 36 := by linarith
  have h2 : ((3.141592 : ℝ) / 36) ^ 2 ≤ (Real.pi / 36) ^ 2 :=
    pow_le_pow_left₀ (by norm_num) hxl 2
  have h4 : (Real.pi / 36) ^ 4 ≤ ((3.141593 : ℝ) / 36) ^ 4 :=
    pow_le_pow_left₀ hx0.le hxu 4
  have hnum : (1 : ℝ) - ((3.141592 : ℝ) / 36) ^ 2 / 2
      + ((3.141593 : ℝ) / 36) ^ 4 * (5 / 96) ≤ 0.996196 := by
    norm_num
  linarith

theorem latsin_bounds {lat : ℝ} (h1 : -85 < lat) (h2 : lat < 85) :
    -(0.996196 : ℝ) < Tile.latsin lat ∧ Tile.latsin lat < 0.996196 := by
  have hπ := Real.pi_pos
  have hθu : lat * Real.pi / 180 < 85 * Real.pi / 180 := by
    have h := mul_pos (sub_pos.2 h2) hπ
    nlinarith
  have hθl : -(85 * Real.pi / 180) < lat * Real.pi / 180 := by
    have h := mul_pos (sub_pos.2 (neg_lt.mp h1 : -lat < 85)) hπ
    nlinarith
  have hhalf : 85 * Real.pi / 180 ≤ Real.pi / 2 := by nlinarith
  have hsin_eq : Real.sin (85 * Real.pi / 180) = Real.cos (Real.pi / 36) := by
    have harg : Real.pi / 2 - 85 * Real.pi / 180 = Real.pi / 36 := by ring
    rw [← Real.cos_pi_div_two_sub, harg]
  have hupper : Tile.latsin lat < Real.cos (Real.pi / 36) := by
    rw [← hsin_eq]
    exact Real.sin_lt_sin_of_lt_of_le_pi_div_two (by linarith) hhalf hθu
  have hlower : -Real.cos (Real.pi / 36) < Tile.latsin lat := by
    have h := Real.sin_lt_sin_of_lt_of_le_pi_div_two
      (x := -(85 * Real.pi / 180)) (y := lat * Real.pi / 180)
      (by linarith) (by linarith) hθl
    rw [Real.sin_neg, hsin_eq] at h
    exact h
  have hc := cos_pi_div_36_le
  constructor
  · linarith
  · exact hupper.trans_le hc

theorem log_ratio_bounds {s : ℝ} (hl : -(0.996196 : ℝ) < s)
    (hu : s < 0.996196) :
    -(2 * Real.pi) < Real.log ((1 + s) / (1 - s))
    ∧ Real.log ((1 + s) / (1 - s)) < 2 * Real.pi := by
  have h1s : (0:ℝ) < 1 - s := by norm_num at hu ⊢; linarith
  have h2s : (0:ℝ) < 1 + s := by norm_num at hl ⊢; linarith
  have hratio_pos : (0:ℝ) < (1 + s) / (1 - s) := by positivity
  have hup : (1 + s) / (1 - s) < 499049 / 951 := by
    rw [div_lt_div_iff h1s (by norm_num)]
    norm_num at hu ⊢
    linarith
  have hlo : (951 : ℝ) / 499049 < (1 + s) / (1 - s) := by
    rw [div_lt_div_iff (by norm_num) h1s]
    norm_num at hl ⊢
    linarith
  constructor
  · have hexp : Real.exp (-(2 * Real.pi)) < (951 : ℝ) / 499049 := by
      rw [Real.exp_neg]
      have h1 : ((499049 : ℝ) / 951)⁻¹ = 951 / 499049 := by norm_num
      rw [← h1]
      exact inv_lt_inv_of_lt (by norm_num) exp_two_pi_gt
    have := Real.log_lt_log (Real.exp_pos _) (hexp.trans hlo)
    rwa [Real.log_exp] at this
  · have hlt : (1 + s) / (1 - s) < Real.exp (2 * Real.pi) :=
      hup.trans exp_two_pi_gt
    have := Real.log_lt_log hratio_pos hlt
    rwa [Real.log_exp] at this

theorem normY_bounds {lat : ℝ} (h1 : -85 < lat) (h2 : lat < 85) :
    0 < normY lat ∧ normY lat < 1 := by
  have hπ := Real.pi_pos
  obtain ⟨hsl, hsu⟩ := latsin_bounds h1 h2
  obtain ⟨hLl, hLu⟩ := log_ratio_bounds hsl hsu
  set L := Real.log ((1 + latsin lat) / (1 - latsin lat)) with hL
  have hdivu : L / Real.pi < 2 := by
    rw [div_lt_iff hπ]
    linarith
  have hdivl : -2 < L / Real.pi := by
    rw [lt_div_iff hπ]
    linarith
  unfold normY
  rw [← hL]
  constructor
  · have : 0.25 * L / Real.pi < 0.5 := by
      rw [mul_div_assoc]
      linarith
    linarith
  · have : -(0.5 : ℝ) < 0.25 * L / Real.pi := by
      rw [mul_div_assoc]
      linarith
    linarith

theorem tileIndex_floor_bounds {v : ℝ} (z : Nat) (h0 : 0 < v) (h1 : v < 1) :
    ((tileIndex v z : ℕ) : ℝ) ≤ v * 2 ^ z
    ∧ v * 2 ^ z < ((tileIndex v z : ℕ) : ℝ) + 1 := by
  have hne0 : ¬ v ≤ 0 := not_le.mpr h0
  have hne1 : ¬ 1 ≤ v := not_le.mpr h1
  have hidx : tileIndex v z = (⌊v * 2 ^ z⌋).toNat := by
    unfold tileIndex
    rw [if_neg hne0, if_neg hne1]
  have hnn : 0 ≤ ⌊v * (2:ℝ) ^ z⌋ := Int.floor_nonneg.mpr (by positivity)
  have hcast : (((⌊v * (2:ℝ) ^ z⌋).toNat : ℕ) : ℝ) = ((⌊v * (2:ℝ) ^ z⌋ : ℤ) : ℝ) := by
    exact_mod_cast Int.toNat_of_nonneg hnn
  rw [hidx, hcast]
  exact ⟨Int.floor_le _, Int.lt_floor_add_one _⟩

theorem mercX_eq (lon : ℝ) :
    mercX lon = EARTH_CIRCUMFERENCE * normX lon - EARTH_CIRCUMFERENCE / 2 := by
  unfold mercX normX EARTH_CIRCUMFERENCE EARTH_RADIUS
  ring

theorem mercY_eq (lat : ℝ) :
    mercY lat = EARTH_CIRCUMFERENCE / 2 - EARTH_CIRCUMFERENCE * normY lat := by
  unfold mercY normY EARTH_CIRCUMFERENCE EARTH_RADIUS
  field_simp
  ring

/-- C2: for every `zoom < 30`, `lon ∈ (-180, 180)` and `lat ∈ (-85, 85)`,
the extent `bbox_mercator (from_coords lon lat zoom)` contains the Web
Mercator projection of the point: the projected x lies in `[minx, maxx]`
and the projected y lies in `[miny, maxy]`. -/
theorem bbox_contains_projection (lon lat : ℝ) (zoom : Nat)
    (_hz : zoom < 30) (hlon1 : -180 < lon) (hlon2 : lon < 180)
    (hlat1 : -85 < lat) (hlat2 : lat < 85) :
    (from_coords lon lat zoom).bbox_mercator.1 ≤ mercX lon
    ∧ mercX lon ≤ (from_coords lon lat zoom).bbox_mercator.2.2.1
    ∧ (from_coords lon lat zoom).bbox_mercator.2.1 ≤ mercY lat
    ∧ mercY lat ≤ (from_coords lon lat zoom).bbox_mercator.2.2.2 := by
  have hπ := Real.pi_pos
  have hC : 0 < EARTH_CIRCUMFERENCE := by
    unfold EARTH_CIRCUMFERENCE EARTH_RADIUS
    positivity
  have h2z : (0:ℝ) < 2 ^ zoom := by positivity
  have hts : 0 < EARTH_CIRCUMFERENCE / 2 ^ zoom := by positivity
  have htsC : EARTH_CIRCUMFERENCE / 2 ^ zoom * 2 ^ zoom = EARTH_CIRCUMFERENCE :=
    div_mul_cancel₀ _ (ne_of_gt h2z)
  -- normalized x and y lie strictly inside (0, 1)
  have hx0 : 0 < normX lon := by
    unfold normX
    norm_num
    linarith
  have hx1 : normX lon < 1 := by
    unfold normX
    norm_num
    linarith
  obtain ⟨hy0, hy1⟩ := normY_bounds hlat1 hlat2
  obtain ⟨hxl, hxu⟩ := tileIndex_floor_bounds zoom hx0 hx1
  obtain ⟨hyl, hyu⟩ := tileIndex_floor_bounds zoom hy0 hy1
  set xt := ((tileIndex (normX lon) zoom : ℕ) : ℝ)
  set yt := ((tileIndex (normY lat) zoom : ℕ) : ℝ)
  set ts := EARTH_CIRCUMFERENCE / 2 ^ zoom with hts_def
  have hxtts : xt * ts ≤ normX lon * EARTH_CIRCUMFERENCE := by
    have h := mul_le_mul_of_nonneg_right hxl hts.le
    calc xt * ts ≤ normX lon * 2 ^ zoom * ts := h
      _ = normX lon * (ts * 2 ^ zoom) := by ring
      _ = normX lon * EARTH_CIRCUMFERENCE := by rw [htsC]
  have hxtts' : normX lon * EARTH_CIRCUMFERENCE < (xt + 1) * ts := by
    have h := mul_lt_mul_of_pos_right hxu hts
    calc normX lon * EARTH_CIRCUMFERENCE
        = normX lon * (ts * 2 ^ zoom) := by rw [htsC]
      _ = normX lon * 2 ^ zoom * ts := by ring
      _ < (xt + 1) * ts := h
  have hytts : yt * ts ≤ normY lat * EARTH_CIRCUMFERENCE := by
    have h := mul_le_mul_of_nonneg_right hyl hts.le
    calc yt * ts ≤ normY lat * 2 ^ zoom * ts := h
      _ = normY lat * (ts * 2 ^ zoom) := by ring
      _ = normY lat * EARTH_CIRCUMFERENCE := by rw [htsC]
  have hytts' : normY lat * EARTH_CIRCUMFERENCE < (yt + 1) * ts := by
    have h := mul_lt_mul_of_pos_right hyu hts
    calc normY lat * EARTH_CIRCUMFERENCE
        = normY lat * (ts * 2 ^ zoom) := by rw [htsC]
      _ = normY lat * 2 ^ zoom * ts := by ring
      _ < (yt + 1) * ts := h
  have hmx := mercX_eq lon
  have hmy := mercY_eq lat
  refine ⟨?_, ?_, ?_, ?_⟩
  · show xt * ts - EARTH_CIRCUMFERENCE / 2 ≤ mercX lon
    rw [hmx]
    linarith
  · show mercX lon ≤ xt * ts - EARTH_CIRCUMFERENCE / 2 + ts
    rw [hmx]
    have : (xt + 1) * ts = xt * ts + ts := by ring
    linarith [hxtts']
  · show EARTH_CIRCUMFERENCE / 2 - yt * ts - ts ≤ mercY lat
    rw [hmy]
    have : (yt + 1) * ts = yt * ts + ts := by ring
    linarith [hytts']
  · show mercY lat ≤ EARTH_CIRCUMFERENCE / 2 - yt * ts
    rw [hmy]
    linarith

/-- Witness for `bbox_contains_projection` at `lon = 0`, `lat = 0`,
`zoom = 0`. -/
theorem bbox_contains_projection_witness :
    (from_coords 0 0 0).bbox_mercator.1 ≤ mercX 0
    ∧ mercX 0 ≤ (from_coords 0 0 0).bbox_mercator.2.2.1
    ∧ (from_coords 0 0 0).bbox_mercator.2.1 ≤ mercY 0
    ∧ mercY 0 ≤ (from_coords 0 0 0).bbox_mercator.2.2.2 :=
  bbox_contains_projection 0 0 0 (by norm_num) (by norm_num) (by norm_num)
    (by norm_num) (by norm_num)

/-! Concrete transcendental bounds for the Denver doctest
(`from_coords(-105., 40., 7)`). -/

theorem latsin_40_bounds :
    (0.62904 : ℝ) < latsin 40 ∧ latsin 40 < 0.653795 := by
  have hπl := Real.pi_gt_d6
  have hπu := Real.pi_lt_d6
  have hx0 : (0:ℝ) < 40 * Real.pi / 180 := by linarith
  have hxl : (0.698131 : ℝ) ≤ 40 * Real.pi / 180 := by linarith
  have hxu : 40 * Real.pi / 180 ≤ (0.698132 : ℝ) := by linarith
  have habs : |40 * Real.pi / 180| ≤ 1 := by
    rw [abs_of_pos hx0]
    linarith
  have hb := Real.sin_bound habs
  rw [abs_of_pos hx0] at hb
  have hs_up : Real.sin (40 * Real.pi / 180)
      ≤ 40 * Real.pi / 180 - (40 * Real.pi / 180) ^ 3 / 6
        + (40 * Real.pi / 180) ^ 4 * (5 / 96) := by
    have h := (abs_sub_le_iff.mp hb).1
    linarith
  have hs_lo : 40 * Real.pi / 180 - (40 * Real.pi / 180) ^ 3 / 6
      - (40 * Real.pi / 180) ^ 4 * (5 / 96) ≤ Real.sin (40 * Real.pi / 180) := by
    have h := (abs_sub_le_iff.mp hb).2
    linarith
  have hx3u : (40 * Real.pi / 180) ^ 3 ≤ (0.698132 : ℝ) ^ 3 :=
    pow_le_pow_left₀ hx0.le hxu 3
  have hx3l : (0.698131 : ℝ) ^ 3 ≤ (40 * Real.pi / 180) ^ 3 :=
    pow_le_pow_left₀ (by norm_num) hxl 3
  have hx4u : (40 * Real.pi / 180) ^ 4 ≤ (0.698132 : ℝ) ^ 4 :=
    pow_le_pow_left₀ hx0.le hxu 4
  have hx4l : (0:ℝ) ≤ (40 * Real.pi / 180) ^ 4 := by positivity
  have c3u : (0.698132 : ℝ) ^ 3 ≤ 0.340262 := by norm_num
  have c3l : (0.340259 : ℝ) ≤ (0.698131 : ℝ) ^ 3 := by norm_num
  have c4u : (0.698132 : ℝ) ^ 4 ≤ 0.237548 := by norm_num
  unfold latsin
  constructor
  · linarith
  · linarith

theorem ratio_40_bounds :
    (4.39130 : ℝ) < (1 + latsin 40) / (1 - latsin 40)
    ∧ (1 + latsin 40) / (1 - latsin 40) < 4.77693 := by
  obtain ⟨hsl, hsu⟩ := latsin_40_bounds
  have h1s : (0:ℝ) < 1 - latsin 40 := by linarith
  constructor
  · rw [lt_div_iff h1s]
    linarith
  · rw [div_lt_iff h1s]
    linarith

theorem exp_15pi_div_32_lt : Real.exp (15 * Real.pi / 32) < 4.39130 := by
  have hπu := Real.pi_lt_d6
  have h1 : 15 * Real.pi / 32 ≤ (1.4726218 : ℝ) := by linarith
  have h2 : Real.exp (15 * Real.pi / 32) ≤ Real.exp (1.4726218 : ℝ) :=
    Real.exp_le_exp.mpr h1
  have h3 : Real.exp (1.4726218 : ℝ) = Real.exp 1 * Real.exp (0.4726218 : ℝ) := by
    rw [← Real.exp_add]
    norm_num
  have hub := Real.exp_bound' (x := (0.4726218 : ℝ)) (by norm_num) (by norm_num)
    (n := 5) (by norm_num)
  have h5 : Real.exp (0.4726218 : ℝ) ≤ 1.6042174 := by
    refine le_trans hub ?_
    norm_num [Finset.sum_range_succ, Finset.sum_range_zero, Nat.factorial]
  have h6 : Real.exp 1 * Real.exp (0.4726218 : ℝ)
      ≤ 2.7182818286 * 1.6042174 := by
    apply mul_le_mul Real.exp_one_lt_d9.le h5 (Real.exp_pos _).le (by norm_num)
  have h7 : (2.7182818286 : ℝ) * 1.6042174 < 4.39130 := by norm_num
  calc Real.exp (15 * Real.pi / 32) ≤ Real.exp (1.4726218 : ℝ) := h2
    _ = Real.exp 1 * Real.exp (0.4726218 : ℝ) := h3
    _ ≤ 2.7182818286 * 1.6042174 := h6
    _ < 4.39130 := h7

theorem exp_pi_div_two_ge : (4.77693 : ℝ) ≤ Real.exp (Real.pi / 2) := by
  have hπl := Real.pi_gt_d6
  have h1 : (1.570796 : ℝ) ≤ Real.pi / 2 := by linarith
  have h2 : Real.exp (1.570796 : ℝ) ≤ Real.exp (Real.pi / 2) :=
    Real.exp_le_exp.mpr h1
  have h3 : Real.exp (1.570796 : ℝ) = Real.exp 1 * Real.exp (0.570796 : ℝ) := by
    rw [← Real.exp_add]
    norm_num
  have hlb := Real.sum_le_exp_of_nonneg (x := (0.570796 : ℝ)) (by norm_num) 5
  have h5 : (1.7691179 : ℝ) ≤ Real.exp (0.570796 : ℝ) := by
    refine le_trans ?_ hlb
    norm_num [Finset.sum_range_succ, Finset.sum_range_zero, Nat.factorial]
  have h6 : (2.7182818283 : ℝ) * 1.7691179
      ≤ Real.exp 1 * Real.exp (0.570796 : ℝ) :=
    mul_le_mul Real.exp_one_gt_d9.le h5 (by norm_num) (Real.exp_pos _).le
  have h7 : (4.77693 : ℝ) ≤ 2.7182818283 * 1.7691179 := by norm_num
  linarith

theorem log_ratio_40_bounds :
    15 * Real.pi / 32 < Real.log ((1 + latsin 40) / (1 - latsin 40))
    ∧ Real.log ((1 + latsin 40) / (1 - latsin 40)) < Real.pi / 2 := by
  obtain ⟨hrl, hru⟩ := ratio_40_bounds
  have hpos : (0:ℝ) < (1 + latsin 40) / (1 - latsin 40) :=
    lt_trans (by norm_num) hrl
  constructor
  · have h1 : Real.exp (15 * Real.pi / 32) < (1 + latsin 40) / (1 - latsin 40) :=
      exp_15pi_div_32_lt.trans hrl
    have h := Real.log_lt_log (Real.exp_pos _) h1
    rwa [Real.log_exp] at h
  · have h1 : (1 + latsin 40) / (1 - latsin 40) < Real.exp (Real.pi / 2) :=
      hru.trans_le exp_pi_div_two_ge
    have h := Real.log_lt_log hpos h1
    rwa [Real.log_exp] at h

theorem normY_40_mem : (3:ℝ)/8 < normY 40 ∧ normY 40 < 49/128 := by
  have hπ := Real.pi_pos
  obtain ⟨hLl, hLu⟩ := log_ratio_40_bounds
  unfold normY
  set L := Real.log ((1 + latsin 40) / (1 - latsin 40)) with hL
  constructor
  · have h : L / Real.pi < 1/2 := by
      rw [div_lt_iff hπ]
      linarith
    have h2 : 0.25 * L / Real.pi < 1/8 := by
      rw [mul_div_assoc]
      linarith
    linarith
  · have h : (15:ℝ)/32 < L / Real.pi := by
      rw [lt_div_iff hπ]
      linarith
    have h2 : (15:ℝ)/128 < 0.25 * L / Real.pi := by
      rw [mul_div_assoc]
      linarith
    linarith

theorem tileIndex_normY_40 : tileIndex (normY 40) 7 = 48 := by
  obtain ⟨h1, h2⟩ := normY_40_mem
  have hne0 : ¬ normY 40 ≤ 0 := by
    push_neg
    linarith
  have hne1 : ¬ (1:ℝ) ≤ normY 40 := by
    push_neg
    linarith
  unfold tileIndex
  rw [if_neg hne0, if_neg hne1]
  have hfloor : ⌊normY 40 * 2 ^ 7⌋ = 48 := by
    rw [Int.floor_eq_iff]
    constructor
    · push_cast
      nlinarith
    · push_cast
      nlinarith
  rw [hfloor]
  rfl

theorem tileIndex_normX_m105 : tileIndex (normX (-105)) 7 = 26 := by
  have hval : normX (-105) = 5/24 := by
    unfold normX
    norm_num
  have hne0 : ¬ normX (-105) ≤ 0 := by
    rw [hval]
    norm_num
  have hne1 : ¬ (1:ℝ) ≤ normX (-105) := by
    rw [hval]
    norm_num
  unfold tileIndex
  rw [if_neg hne0, if_neg hne1, hval]
  have hfloor : ⌊(5:ℝ)/24 * 2 ^ 7⌋ = 26 := by
    rw [Int.floor_eq_iff]
    constructor
    · push_cast
      norm_num
    · push_cast
      norm_num
  rw [hfloor]
  rfl

/-- C9: the concrete doctest values: `from_coords(-105, 40, 7)` returns
`Tile{x:26, y:48, zoom:7}`, and for that tile `children(tile, 9)` has
length 21 with a first element of zoom 9. -/
theorem from_coords_denver :
    from_coords (-105) 40 7 = ⟨26, 48, 7⟩
    ∧ ((Tile.mk 26 48 7).children 9).length = 21
    ∧ (((Tile.mk 26 48 7).children 9).head?.map Tile.zoom) = some 9 := by
  refine ⟨?_, by decide, by decide⟩
  unfold from_coords
  rw [tileIndex_normX_m105, tileIndex_normY_40]

end Tile

end

end MapServer
